import Mathlib

/-!
Verification development for the clipcat repository (Go).

The development shallowly embeds the file-collection core of the repository:
the `exclude` package (`ExcludeMatcher`, `ShouldExclude`, `matchPath` backed by
Go's `path/filepath.Match`) and the `collector` package (`CollectFiles`,
`isGlobPattern`, `matchPath` backed by the doublestar library for `**`/brace
patterns), plus the sorting step performed by `Run` in pkg/clipcat/app.go.

Modelling conventions:
  - Strings are `List Char`; Go compares strings byte-wise and all inputs of
    interest are ASCII, where byte order and codepoint order agree.
  - The OS is Linux: `filepath.Separator` is `'/'`, so the
    `strings.ReplaceAll(s, "/", string(filepath.Separator))` normalisations in
    the source are identities and are not repeated in the model.
  - The process working directory is the root of the modelled file system, so
    `filepath.Abs` and `filepath.Rel(".", ·)` are identities on the clean
    relative paths the collector produces, and the model uses the relative path
    itself as the canonical absolute path.
  - `strings.ToLower` / `unicode.IsSpace` are modelled on the ASCII fragment
    (all case folding performed by the source on the inputs of interest is
    ASCII).
  - The gitignore engine (github.com/sabhiram/go-gitignore) and the doublestar
    matcher (github.com/bmatcuk/doublestar) are third-party libraries outside
    this repository; they are taken as opaque boolean oracles (a function
    parameter), exactly at the interface the source calls them through.
-/

namespace Clipcat

/-- `filepath.Separator` on Linux. -/
def osSep : Char := '/'

/-- ASCII case folding of one character, as `strings.ToLower` acts on the
ASCII inputs handled by the source. -/
def lowerChar : Char → Char
  | 'A' => 'a'
  | 'B' => 'b'
  | 'C' => 'c'
  | 'D' => 'd'
  | 'E' => 'e'
  | 'F' => 'f'
  | 'G' => 'g'
  | 'H' => 'h'
  | 'I' => 'i'
  | 'J' => 'j'
  | 'K' => 'k'
  | 'L' => 'l'
  | 'M' => 'm'
  | 'N' => 'n'
  | 'O' => 'o'
  | 'P' => 'p'
  | 'Q' => 'q'
  | 'R' => 'r'
  | 'S' => 's'
  | 'T' => 't'
  | 'U' => 'u'
  | 'V' => 'v'
  | 'W' => 'w'
  | 'X' => 'x'
  | 'Y' => 'y'
  | 'Z' => 'z'
  | c => c

/-- `strings.ToLower` (ASCII fragment). -/
def lowerStr (s : List Char) : List Char := s.map lowerChar

/-- ASCII white space, as recognised by `unicode.IsSpace` on ASCII input. -/
def isSpaceChar (c : Char) : Bool :=
  c == ' ' || c == '\t' || c == '\n' || c == '\x0b' || c == '\x0c' || c == '\r'

/-- `strings.TrimSpace` (ASCII fragment). -/
def trimSpaceS (s : List Char) : List Char :=
  ((s.dropWhile isSpaceChar).reverse.dropWhile isSpaceChar).reverse

/-- `strings.Contains s sub`. -/
def containsSub : List Char → List Char → Bool
  | s, sub =>
    if sub.isPrefixOf s then true
    else
      match s with
      | [] => false
      | _ :: t => containsSub t sub

/-- Strip trailing separators, first step of `filepath.Base`. -/
def dropTrailingSep (s : List Char) : List Char :=
  (s.reverse.dropWhile (fun c => c == osSep)).reverse

/-- Everything after the last separator, second step of `filepath.Base`. -/
def lastSeg (s : List Char) : List Char :=
  (s.reverse.takeWhile (fun c => !(c == osSep))).reverse

/-- `filepath.Base` (no Windows volume handling). -/
def baseName (p : List Char) : List Char :=
  if p.isEmpty then ['.']
  else
    let q := dropTrailingSep p
    if q.isEmpty then [osSep] else lastSeg q

/-- `getEsc` of path/filepath/match.go: read one (possibly escaped) character
of a character class. `none` models `ErrBadPattern`; Go also errors when the
remaining chunk becomes empty (an unterminated class). -/
def getEsc : List Char → Option (Char × List Char)
  | [] => none
  | c :: rest =>
    if c == '-' || c == ']' then none
    else if c == '\\' then
      match rest with
      | [] => none
      | d :: rest2 => if rest2.isEmpty then none else some (d, rest2)
    else if rest.isEmpty then none else some (c, rest)

/-- The range-parsing loop of the `'['` case of `matchChunk` in
path/filepath/match.go: `r` is the character read from the name, the result is
(whether some range matched, rest of the pattern past `']'`). The fuel is a
bound on the loop count; every iteration consumes at least one pattern
character, so `chunk.length + 1` initial fuel is always sufficient. -/
def classRanges (r : Char) : Nat → Bool → Nat → List Char → Option (Bool × List Char)
  | 0, _, _, _ => none
  | _ + 1, mtch, nrange, ']' :: rest =>
    if nrange > 0 then some (mtch, rest) else none
  | fuel + 1, mtch, nrange, chunk =>
    match getEsc chunk with
    | none => none
    | some (lo, chunk1) =>
      match chunk1 with
      | '-' :: chunk2 =>
        match getEsc chunk2 with
        | none => none
        | some (hi, chunk3) =>
          classRanges r fuel (mtch || (decide (lo ≤ r) && decide (r ≤ hi))) (nrange + 1) chunk3
      | _ =>
        classRanges r fuel (mtch || (decide (lo ≤ r) && decide (r ≤ lo))) (nrange + 1) chunk1

/-- Glob matching of `path/filepath.Match` on Linux: `*` matches a (possibly
empty) run of non-separator characters, `?` one non-separator character,
`[...]` a character class (with `^` negation and `-` ranges, and which, as in
Go, may match the separator), `\\` escapes the next character.  A malformed
pattern never matches, matching the source's `ok, _ := filepath.Match(...)`
which discards `ErrBadPattern` (Go returns `false` whenever it returns an
error).  The fuel is a bound on the recursion depth; every recursive call
strictly decreases `pat.length + s.length`, so the initial fuel chosen in
`filepathMatch` is always sufficient. -/
def matchGlobFuel : Nat → List Char → List Char → Bool
  | 0, _, _ => false
  | fuel + 1, pat, s =>
    match pat with
    | [] => s.isEmpty
    | '*' :: p =>
      matchGlobFuel fuel p s ||
        (match s with
         | [] => false
         | c :: s2 => !(c == osSep) && matchGlobFuel fuel ('*' :: p) s2)
    | '?' :: p =>
      (match s with
       | [] => false
       | c :: s2 => !(c == osSep) && matchGlobFuel fuel p s2)
    | '[' :: p =>
      (match s with
       | [] => false
       | c :: s2 =>
         let np : Bool × List Char :=
           match p with
           | '^' :: pr => (true, pr)
           | _ => (false, p)
         match classRanges c (np.2.length + 1) false 0 np.2 with
         | none => false
         | some (mtch, p2) => (mtch != np.1) && matchGlobFuel fuel p2 s2)
    | '\\' :: p =>
      (match p with
       | [] => false
       | c :: p2 =>
         match s with
         | [] => false
         | d :: s2 => (c == d) && matchGlobFuel fuel p2 s2)
    | c :: p =>
      (match s with
       | [] => false
       | d :: s2 => (c == d) && matchGlobFuel fuel p s2)

/-- `filepath.Match pattern s` with the error discarded, as both packages of
the repository use it. -/
def filepathMatch (pat s : List Char) : Bool :=
  matchGlobFuel (pat.length + s.length + 1) pat s

namespace exclude

/-- `exclude.ExcludeMatcher` (pkg/exclude).  The compiled gitignore matcher of
the third-party go-gitignore library is opaque to this repository: it is
modelled as an optional boolean oracle on the normalised relative path,
mirroring the `*gitignore.GitIgnore` field (`nil` ↦ `none`). -/
structure ExcludeMatcher where
  gitignoreMatcher : Option (List Char → Bool)
  globPatterns : List (List Char)
  ignoreCase : Bool

/-- The local `lower` closure of `ShouldExclude`. -/
def lowerIf (ic : Bool) (s : List Char) : List Char := if ic then lowerStr s else s

/-- `exclude.hasGlobChars`: `strings.ContainsAny(s, "*?[")`. -/
def hasGlobChars (s : List Char) : Bool :=
  s.any (fun c => c == '*' || c == '?' || c == '[')

/-- `exclude.matchPath`: `filepath.Match` with the error discarded. -/
def matchPath (pattern target : List Char) : Bool := filepathMatch pattern target

/-- One iteration of the `for _, raw := range m.globPatterns` loop of
`ShouldExclude` (pkg/exclude, lines 93-151): `true` means the loop would
`return true` for this pattern, `false` means it would `continue`.
`relCmp`/`baseCmp` are the (possibly lowered) relative path and basename of the
candidate.  On Linux the `strings.ReplaceAll(pat, "/", osSep)` step is the
identity and is omitted. -/
def patMatches (ic : Bool) (relCmp baseCmp : List Char) (isDir : Bool) (raw : List Char) : Bool :=
  let pat := trimSpaceS raw
  if pat.isEmpty then false
  else
    let patCmp := lowerIf ic pat
    if [osSep].isSuffixOf patCmp then
      -- Directory patterns MUST end with a separator to affect directories.
      let dirPat := patCmp.dropLast
      if !hasGlobChars dirPat && !containsSub dirPat [osSep] then
        -- Simple dir name (no globs/seps)
        ((isDir && (relCmp == dirPat || relCmp == dirPat ++ [osSep]))
          || (dirPat ++ [osSep]).isPrefixOf relCmp
          || containsSub relCmp (osSep :: (dirPat ++ [osSep])))
      else
        -- Complex dir pattern: prefix glob for anything under it
        matchPath (dirPat ++ [osSep, '*']) relCmp
    else if containsSub patCmp [osSep] then
      -- Path-aware pattern; excludes files only, directories keep walking
      matchPath patCmp relCmp && !isDir
    else
      -- Basename-only pattern: files only
      !isDir && matchPath patCmp baseCmp

/-- `(*ExcludeMatcher).ShouldExclude` (pkg/exclude, lines 66-154).  The working
directory is the model's file-system root, so `filepath.Rel(".", path)` is the
identity on the paths the collector passes in, and separator normalisation is
the identity on Linux. -/
def ShouldExclude (m : ExcludeMatcher) (path : List Char) (isDir : Bool) : Bool :=
  let relNorm := path
  let base := baseName relNorm
  let relCmp := lowerIf m.ignoreCase relNorm
  let baseCmp := lowerIf m.ignoreCase base
  (match m.gitignoreMatcher with
   | some g => g relNorm
   | none => false)
  || m.globPatterns.any (patMatches m.ignoreCase relCmp baseCmp isDir)

/-- `exclude.BuildMatcher(files, globPatterns, ignoreCase)` in the case
`files = []`: no exclude-file patterns are read, `allPatterns` stays empty and
`gitignoreMatcher` remains `nil`. -/
def BuildMatcherNoFiles (globPatterns : List (List Char)) (ignoreCase : Bool) : ExcludeMatcher :=
  ⟨none, globPatterns, ignoreCase⟩

end exclude

namespace collector

/- A file-system tree: what `os.Stat` / `filepath.Walk` observe.  Mutual with
`FSList` (the children of a directory) so that all recursions over it are
structural.  `filepath.Walk` visits directory entries in sorted name order; the
model walks the stored child list in order and assumes trees list children in
that order (membership-based claims are order-independent). -/
mutual
inductive FSTree where
  | file : List Char → FSTree
  | dir : List Char → FSList → FSTree
inductive FSList where
  | nil : FSList
  | cons : FSTree → FSList → FSList
end

/-- Name of an entry (`fi.Name()`). -/
def FSTree.name : FSTree → List Char
  | .file n => n
  | .dir n _ => n

/-- `fi.IsDir()`. -/
def FSTree.isDir : FSTree → Bool
  | .file _ => false
  | .dir _ _ => true

/-- `filepath.Join(p, name)` for the clean paths produced by the walk:
`Join(".", name) = name`, otherwise `p + "/" + name`. -/
def joinPath (p : List Char) (name : List Char) : List Char :=
  if p == ['.'] then name else p ++ osSep :: name

/-- Split a path into `/`-separated segments (helper for path lookup). -/
def splitSegAux : List Char → List Char → List (List Char)
  | [], acc => [acc.reverse]
  | c :: r, acc =>
    if c == osSep then acc.reverse :: splitSegAux r []
    else splitSegAux r (c :: acc)

/-- Split a path into `/`-separated segments. -/
def splitSeg (p : List Char) : List (List Char) := splitSegAux p []

/-- First entry of the list with the given name. -/
def findByName : FSList → List Char → Option FSTree
  | .nil, _ => none
  | .cons t ts, s => if t.name == s then some t else findByName ts s

/-- Resolve a segment chain against a tree list: the last segment may name
any entry, intermediate segments must name directories. -/
def findEntry : FSList → List (List Char) → Option FSTree
  | _, [] => none
  | fs, s :: rest =>
    if rest.isEmpty then findByName fs s
    else
      match findByName fs s with
      | some (.dir _ ch) => findEntry ch rest
      | _ => none

/-- `os.Stat(p)` against the modelled file system rooted at the working
directory: `some` entry on success, `none` models a non-nil error.  The token
`"."` denotes the root itself. -/
def statPath (fs : FSList) (p : List Char) : Option FSTree :=
  if p == ['.'] then some (.dir ['.'] fs) else findEntry fs (splitSeg p)

/-- `collector.isGlobPattern`: `strings.ContainsAny(path, "*?[")`. -/
def isGlobPattern (path : List Char) : Bool :=
  path.any (fun c => c == '*' || c == '?' || c == '[')

/-- `collector.isDoublestarPattern`: `strings.Contains(pattern, "**")`. -/
def isDoublestarPattern (pattern : List Char) : Bool :=
  containsSub pattern ['*', '*']

/-- `collector.hasBraceExpansion`. -/
def hasBraceExpansion (pattern : List Char) : Bool :=
  pattern.contains '\x7b' && pattern.contains '\x7d'

/-- `collector.containsAnySep`: on Linux both alternatives test `'/'`. -/
def containsAnySep (s : List Char) : Bool := containsSub s [osSep]

/-- `collector.matchPath`: doublestar for `**`/brace patterns (the third-party
doublestar library, taken as the oracle `ds`), `filepath.Match` otherwise. -/
def matchPath (ds : List Char → List Char → Bool) (pattern target : List Char) : Bool :=
  if isDoublestarPattern pattern || hasBraceExpansion pattern then ds pattern target
  else filepathMatch pattern target

/-- The mutable state of one `CollectFiles` call: the `seen` set (modelled as
the list of keys set to `true`), the `result` slice, and the warnings printed
to stderr. -/
structure CState where
  seen : List (List Char)
  result : List (List Char)
  warnings : List (List Char)

/-- `result = append(result, p); seen[p] = true`. -/
def addPath (st : CState) (p : List Char) : CState :=
  { st with seen := p :: st.seen, result := st.result ++ [p] }

/-- The body of the directory-branch walk callback at a file entry
(pkg/collector, lines 62-75, `fi.IsDir() = false`): skip excluded files,
append unseen survivors. -/
def walkFileStep (m : exclude.ExcludeMatcher) (path : List Char) (st : CState) : CState :=
  if exclude.ShouldExclude m path false then st
  else if !st.seen.contains path then addPath st path else st

/- The `filepath.Walk` of the directory branch of `CollectFiles`
(pkg/collector, lines 55-77), specialised to its callback: excluded
directories are pruned via `filepath.SkipDir`, excluded files skipped,
remaining files appended if unseen.  `path` is the walk path of the entry,
which equals the absolute path in this model.  The recursion is driven by an
explicit fuel so that it is plain structural recursion on `Nat` (Lean 4.14
mis-compiles the direct mutual structural recursion over `FSTree`/`FSList`):
`Sum.inl t` walks the single entry `t`, `Sum.inr ch` walks a child list in
order.  Every recursive call decrements the fuel by one and the recursion
depth is bounded by the node count of the tree, so any fuel larger than the
node count of the walked tree computes exactly the source's walk; the theorems
below hold for every fuel. -/
def walkF (m : exclude.ExcludeMatcher) :
    Nat → List Char → FSTree ⊕ FSList → CState → CState
  | 0, _, _, st => st
  | fuel + 1, path, .inl t, st =>
    (match t with
     | .file _ => walkFileStep m path st
     | .dir _ ch =>
       if exclude.ShouldExclude m path true then st
       else walkF m fuel path (.inr ch) st)
  | fuel + 1, path, .inr ch, st =>
    (match ch with
     | .nil => st
     | .cons c cs =>
       walkF m fuel path (.inr cs) (walkF m fuel (joinPath path c.name) (.inl c) st))

/-- Walk one entry of the directory branch (`filepath.Walk(path, fn)`). -/
def walkTree (m : exclude.ExcludeMatcher) (fuel : Nat) (path : List Char) (t : FSTree)
    (st : CState) : CState :=
  walkF m fuel path (.inl t) st

/-- The glob-branch file step (pkg/collector, lines 96-140): a surviving file
is matched against the pattern (path-aware when the pattern has a separator or
is a doublestar pattern, basename-only otherwise, lowering both sides when
`ic`) and appended if it matches and is unseen.  On Linux `patNorm = pattern`
and `rel = filepath.Rel(".", p) = path`. -/
def globMatched (ds : List Char → List Char → Bool) (ic : Bool)
    (pattern : List Char) (path : List Char) : Bool :=
  let rel := path
  let patNorm := pattern
  if containsAnySep patNorm || isDoublestarPattern patNorm then
    (if ic then matchPath ds (lowerStr patNorm) (lowerStr rel)
     else matchPath ds patNorm rel)
  else
    (let nm := baseName rel
     if ic then matchPath ds (lowerStr patNorm) (lowerStr nm)
     else matchPath ds patNorm nm)

def globFileStep (ds : List Char → List Char → Bool) (m : exclude.ExcludeMatcher) (ic : Bool)
    (pattern : List Char) (path : List Char) (st : CState) : CState :=
  if exclude.ShouldExclude m path false then st
  else if globMatched ds ic pattern path then
    (if !st.seen.contains path then addPath st path else st)
  else st

/-- The `filepath.Walk(".", ...)` of the glob branch of `CollectFiles`
(pkg/collector, lines 91-142), fuelled exactly like `walkF`: excluded
directories are pruned, surviving files handled by `globFileStep`. -/
def globWalkF (ds : List Char → List Char → Bool) (m : exclude.ExcludeMatcher) (ic : Bool)
    (pattern : List Char) : Nat → List Char → FSTree ⊕ FSList → CState → CState
  | 0, _, _, st => st
  | fuel + 1, path, .inl t, st =>
    (match t with
     | .file _ => globFileStep ds m ic pattern path st
     | .dir _ ch =>
       if exclude.ShouldExclude m path true then st
       else globWalkF ds m ic pattern fuel path (.inr ch) st)
  | fuel + 1, path, .inr ch, st =>
    (match ch with
     | .nil => st
     | .cons c cs =>
       globWalkF ds m ic pattern fuel path (.inr cs)
         (globWalkF ds m ic pattern fuel (joinPath path c.name) (.inl c) st))

/-- The warning printed for an unresolvable token:
`fmt.Fprintf(os.Stderr, "Warning: Skipping non-existent path: %s\n", path)`. -/
def warnMsg (path : List Char) : List Char :=
  "Warning: Skipping non-existent path: ".toList ++ path ++ ['\n']

/-- One iteration of the `for _, path := range paths` loop of `CollectFiles`
(pkg/collector, lines 48-149): an existing directory is walked, an existing
file is added directly (if not excluded and unseen), a non-existent token with
glob metacharacters triggers a whole-tree search from `"."`, anything else
produces a warning.  `filepath.Abs` is the identity in this model. -/
def collectToken (ds : List Char → List Char → Bool) (fs : FSList)
    (m : exclude.ExcludeMatcher) (ic : Bool) (fuel : Nat) (st : CState) (path : List Char) :
    CState :=
  match statPath fs path with
  | some info =>
    if info.isDir then
      walkTree m fuel path info st
    else
      let absPath := path
      if !exclude.ShouldExclude m absPath false && !st.seen.contains absPath then
        addPath st absPath
      else st
  | none =>
    if isGlobPattern path then
      globWalkF ds m ic path fuel ['.'] (.inl (.dir ['.'] fs)) st
    else
      { st with warnings := st.warnings ++ [warnMsg path] }

/-- The token loop of `CollectFiles`. -/
def collectLoop (ds : List Char → List Char → Bool) (fs : FSList)
    (m : exclude.ExcludeMatcher) (ic : Bool) (fuel : Nat) :
    List (List Char) → CState → CState
  | [], st => st
  | p :: ps, st => collectLoop ds fs m ic fuel ps (collectToken ds fs m ic fuel st p)

/-- `collector.CollectFiles(paths, matcher, ignoreCase)` (pkg/collector, lines
44-152).  `fuel` bounds the depth of the filesystem walks (see `walkF`): any
fuel larger than the node count of the modelled file system computes exactly
the source's collection.  The error component is `Except.error`; it is never
produced: the two `return nil, err` sites in the source fire only when
`filepath.Walk` returns a non-nil error, and the walk callbacks only ever
return `nil` or `filepath.SkipDir` (and `SkipDir` from the root makes `Walk`
return `nil`), so the source always reaches `return result, nil`. -/
def CollectFiles (ds : List Char → List Char → Bool) (fs : FSList) (paths : List (List Char))
    (m : exclude.ExcludeMatcher) (ic : Bool) (fuel : Nat) :
    Except (List Char) (List (List Char) × List (List Char)) :=
  let st := collectLoop ds fs m ic fuel paths ⟨[], [], []⟩
  Except.ok (st.result, st.warnings)

end collector

namespace app

/-- Go string comparison `a < b` (byte-wise; codepoint-wise coincides on
ASCII). -/
def lexLt : List Char → List Char → Bool
  | [], [] => false
  | [], _ :: _ => true
  | _ :: _, [] => false
  | a :: as, b :: bs =>
    if a < b then true else if b < a then false else lexLt as bs

/-- `a <= b` on strings. -/
def lexLe (a b : List Char) : Bool := !lexLt b a

/-- Insertion step of `sort.Strings`' observable behaviour. -/
def insertSorted (x : List Char) : List (List Char) → List (List Char)
  | [] => [x]
  | y :: ys => if lexLe x y then x :: y :: ys else y :: insertSorted x ys

/-- `sort.Strings(files)` as called by `Run` (pkg/clipcat/app.go, line 32):
sorting is modelled by insertion sort, which produces the same sorted
sequence. -/
def sortStrings : List (List Char) → List (List Char)
  | [] => []
  | x :: xs => insertSorted x (sortStrings xs)

/-- Whether a list of strings is in ascending lexicographic order. -/
def sortedLex : List (List Char) → Bool
  | [] => true
  | [_] => true
  | x :: y :: r => lexLe x y && sortedLex (y :: r)

end app

/-! ## Generic helper lemmas -/

theorem contains_mem {α : Type} [BEq α] [LawfulBEq α] {l : List α} {a : α} :
    l.contains a = true ↔ a ∈ l := by
  simp [List.contains]

theorem containsSub_single_iff {s : List Char} {c : Char} :
    containsSub s [c] = true ↔ c ∈ s := by
  induction s with
  | nil => simp [containsSub]
  | cons x t ih =>
    rw [containsSub]
    cases hx : [c].isPrefixOf (x :: t) with
    | false =>
      have hcx : ¬ c = x := by simpa [List.isPrefixOf] using hx
      simp [hx, ih, List.mem_cons, hcx]
    | true =>
      have hcx : c = x := by simpa [List.isPrefixOf] using hx
      simp [hx, hcx]

theorem sepSuffix_of_containsSub {pat : List Char}
    (h : containsSub pat [osSep] = false) : [osSep].isSuffixOf pat = false := by
  by_contra hs
  have hs' : [osSep].isSuffixOf pat = true := by
    cases hx : [osSep].isSuffixOf pat
    · exact absurd hx hs
    · rfl
  have : osSep ∈ pat :=
    List.Sublist.mem (List.mem_singleton_self _)
      (List.IsSuffix.sublist (List.isSuffixOf_iff_suffix.mp hs'))
  have := containsSub_single_iff.mpr this
  rw [this] at h
  exact Bool.false_ne_true h.symm

/-! ## Claims about ShouldExclude (C1, C2, C3, C7, C10) -/

/-- C1, counterexample: the claim says the bare-directory pattern `cache/`
matches the directory `src/cache` (a directory equal to the name at depth one),
but `ShouldExclude` compares the whole relative path with the bare name, only
matching a directory so named at the top level; `src/cache` has no trailing
separator and no `/cache/` substring, so it is not excluded. -/
theorem spec_C1_cex :
    exclude.ShouldExclude
      (exclude.BuildMatcherNoFiles ["cache/".toList] false) ("src/cache".toList) true
      = false := by decide

/-- C1, amended: for an ad-hoc exclude pattern that is a bare directory name
`name` followed by a trailing separator (no glob metacharacters, no interior
separator, no surrounding white space), `ShouldExclude path isDir` holds
exactly when `isDir` and the path equals the name at the top level (with or
without a trailing separator), or the path starts with `name ++ "/"`, or the
path contains `"/" ++ name ++ "/"` — i.e. the path lies under a directory
segment equal to that name.  A directory named `name` nested more deeply
(e.g. `src/cache`) is itself not matched, though everything inside it is. -/
theorem spec_C1 (name path : List Char) (isDir : Bool)
    (hglob : exclude.hasGlobChars name = false)
    (hsep : containsSub name [osSep] = false)
    (htrim : trimSpaceS (name ++ [osSep]) = name ++ [osSep]) :
    exclude.ShouldExclude (exclude.BuildMatcherNoFiles [name ++ [osSep]] false) path isDir
      = ((isDir && (path == name || path == name ++ [osSep]))
         || (name ++ [osSep]).isPrefixOf path
         || containsSub path (osSep :: (name ++ [osSep]))) := by
  have hsuf : [osSep].isSuffixOf (name ++ [osSep]) = true :=
    List.isSuffixOf_iff_suffix.mpr (List.suffix_append name [osSep])
  have hne : (name ++ [osSep]).isEmpty = false := by
    cases name <;> simp [List.isEmpty]
  simp [exclude.ShouldExclude, exclude.BuildMatcherNoFiles, exclude.lowerIf,
    exclude.patMatches, htrim, hne, hsuf, List.dropLast_concat, hglob, hsep]

/-- C1, witness for the amended claim at `name = "cache"`,
`path = "src/cache/f.txt"`, `isDir = false`. -/
theorem spec_C1_witness :
    (exclude.hasGlobChars ("cache".toList) = false
      ∧ containsSub ("cache".toList) [osSep] = false
      ∧ trimSpaceS ("cache".toList ++ [osSep]) = "cache".toList ++ [osSep])
    ∧ exclude.ShouldExclude
        (exclude.BuildMatcherNoFiles ["cache".toList ++ [osSep]] false)
        ("src/cache/f.txt".toList) false
      = ((false && ("src/cache/f.txt".toList == "cache".toList
            || "src/cache/f.txt".toList == "cache".toList ++ [osSep]))
         || ("cache".toList ++ [osSep]).isPrefixOf ("src/cache/f.txt".toList)
         || containsSub ("src/cache/f.txt".toList) (osSep :: ("cache".toList ++ [osSep]))) :=
  ⟨⟨by decide, by decide, by decide⟩,
    spec_C1 ("cache".toList) ("src/cache/f.txt".toList) false (by decide) (by decide) (by decide)⟩

/-- C2: an ad-hoc exclude pattern without separator and without trailing
separator is matched against the basename only and never excludes a
directory; a pattern containing a separator (but no trailing separator) is
matched against the full relative path and also applies to files only.
Concretely, `test.go` excludes `a/test.go` and `test.go`, while `a/test.go`
excludes only `a/test.go` and not `b/test.go`. -/
theorem spec_C2 :
    (∀ pat path : List Char, trimSpaceS pat = pat → pat ≠ [] →
      containsSub pat [osSep] = false →
      (exclude.ShouldExclude (exclude.BuildMatcherNoFiles [pat] false) path false
          = filepathMatch pat (baseName path)
        ∧ exclude.ShouldExclude (exclude.BuildMatcherNoFiles [pat] false) path true = false))
    ∧ (∀ pat path : List Char, trimSpaceS pat = pat →
        containsSub pat [osSep] = true → [osSep].isSuffixOf pat = false →
        (exclude.ShouldExclude (exclude.BuildMatcherNoFiles [pat] false) path false
            = filepathMatch pat path
          ∧ exclude.ShouldExclude (exclude.BuildMatcherNoFiles [pat] false) path true = false))
    ∧ exclude.ShouldExclude
        (exclude.BuildMatcherNoFiles ["test.go".toList] false) ("a/test.go".toList) false = true
    ∧ exclude.ShouldExclude
        (exclude.BuildMatcherNoFiles ["test.go".toList] false) ("test.go".toList) false = true
    ∧ exclude.ShouldExclude
        (exclude.BuildMatcherNoFiles ["a/test.go".toList] false) ("a/test.go".toList) false = true
    ∧ exclude.ShouldExclude
        (exclude.BuildMatcherNoFiles ["a/test.go".toList] false) ("b/test.go".toList) false
        = false := by
  refine ⟨?_, ?_, by decide, by decide, by decide, by decide⟩
  · intro pat path htrim hne hsep
    have hsuf : [osSep].isSuffixOf pat = false := sepSuffix_of_containsSub hsep
    have hemp : pat.isEmpty = false := by
      cases pat
      · exact absurd rfl hne
      · simp [List.isEmpty]
    constructor <;>
      simp [exclude.ShouldExclude, exclude.BuildMatcherNoFiles, exclude.lowerIf,
        exclude.patMatches, exclude.matchPath, htrim, hemp, hsuf, hsep]
  · intro pat path htrim hsep hsuf
    have hemp : pat.isEmpty = false := by
      cases hp : pat with
      | nil => rw [hp] at hsep; simp [containsSub, List.isPrefixOf] at hsep
      | cons a t => simp [List.isEmpty]
    constructor <;>
      simp [exclude.ShouldExclude, exclude.BuildMatcherNoFiles, exclude.lowerIf,
        exclude.patMatches, exclude.matchPath, htrim, hemp, hsuf, hsep]

/-- C2, witness: both universally quantified parts instantiated (`pat =
"*.log"`, `path = "dir/x.log"` for the basename part; `pat = "a/*.go"`,
`path = "a/x.go"` for the path-aware part). -/
theorem spec_C2_witness :
    (exclude.ShouldExclude
        (exclude.BuildMatcherNoFiles ["*.log".toList] false) ("dir/x.log".toList) false
        = filepathMatch ("*.log".toList) (baseName ("dir/x.log".toList))
      ∧ exclude.ShouldExclude
          (exclude.BuildMatcherNoFiles ["*.log".toList] false) ("dir/x.log".toList) true = false)
    ∧ (exclude.ShouldExclude
        (exclude.BuildMatcherNoFiles ["a/*.go".toList] false) ("a/x.go".toList) false
        = filepathMatch ("a/*.go".toList) ("a/x.go".toList)
      ∧ exclude.ShouldExclude
          (exclude.BuildMatcherNoFiles ["a/*.go".toList] false) ("a/x.go".toList) true = false) :=
  ⟨spec_C2.1 ("*.log".toList) ("dir/x.log".toList) (by decide) (by decide) (by decide),
   spec_C2.2.1 ("a/*.go".toList) ("a/x.go".toList) (by decide) (by decide) (by decide)⟩

/-- C3: the claim (and the repository's own test
`TestExcludeMatcherShouldExclude_ComplexGlobs`) expects `ShouldExclude` to use
recursive/brace-aware matching for patterns containing `**` or braces, but
`ShouldExclude` calls the `matchPath` of the exclude package, which is plain
`filepath.Match`: `**` cannot cross a separator and braces are literal, so the
exclude pattern `**/node_modules/**` does not exclude
`project/lib/node_modules/pkg/index.js` and `**/*.{tmp,log}` does not exclude
`project/cache/temp.tmp` (both contrary to the claim and to the test's
expectations). -/
theorem spec_C3 :
    exclude.ShouldExclude
      (exclude.BuildMatcherNoFiles ["**/node_modules/**".toList] false)
      ("project/lib/node_modules/pkg/index.js".toList) false = false
    ∧ exclude.ShouldExclude
        (exclude.BuildMatcherNoFiles ["**/*.\x7btmp,log\x7d".toList] false)
        ("project/cache/temp.tmp".toList) false = false
    ∧ collector.isDoublestarPattern ("**/node_modules/**".toList) = true
    ∧ collector.hasBraceExpansion ("**/*.\x7btmp,log\x7d".toList) = true := by
  refine ⟨by decide, by decide, by decide, by decide⟩

/-! ### Case-insensitivity commutes with the string plumbing (for C7) -/

theorem lowerChar_sep (c : Char) : (lowerChar c == osSep) = (c == osSep) := by
  unfold lowerChar
  split <;> first | decide | rfl

theorem isSpace_lowerChar (c : Char) : isSpaceChar (lowerChar c) = isSpaceChar c := by
  unfold lowerChar
  split <;> first | decide | rfl

theorem isSpace_comp : (isSpaceChar ∘ lowerChar) = isSpaceChar :=
  funext isSpace_lowerChar

theorem sep_comp : ((fun c => c == osSep) ∘ lowerChar) = fun c : Char => c == osSep :=
  funext lowerChar_sep

theorem notSep_comp : ((fun c => !(c == osSep)) ∘ lowerChar) = fun c : Char => !(c == osSep) :=
  funext fun c => by simp [Function.comp, lowerChar_sep]

theorem lowerChar_osSep : lowerChar osSep = osSep := by decide

theorem trim_lower (s : List Char) : trimSpaceS (lowerStr s) = lowerStr (trimSpaceS s) := by
  simp [trimSpaceS, lowerStr, List.dropWhile_map, ← List.map_reverse, isSpace_comp]

theorem dropTrailingSep_lower (s : List Char) :
    dropTrailingSep (lowerStr s) = lowerStr (dropTrailingSep s) := by
  simp [dropTrailingSep, lowerStr, List.dropWhile_map, ← List.map_reverse, sep_comp]

theorem lastSeg_lower (s : List Char) : lastSeg (lowerStr s) = lowerStr (lastSeg s) := by
  simp [lastSeg, lowerStr, List.takeWhile_map, ← List.map_reverse, notSep_comp]

theorem base_lower (p : List Char) : baseName (lowerStr p) = lowerStr (baseName p) := by
  cases p with
  | nil => decide
  | cons a t =>
    rw [baseName, baseName]
    have h1 : (lowerStr (a :: t)).isEmpty = false := by simp [lowerStr]
    have h2 : ((a :: t) : List Char).isEmpty = false := by simp
    rw [h1, h2]
    simp only [if_false, Bool.false_eq_true]
    rw [dropTrailingSep_lower]
    cases hq : dropTrailingSep (a :: t) with
    | nil => simp [lowerStr, lowerChar_osSep]
    | cons b u =>
      have h3 : (lowerStr (b :: u)).isEmpty = false := by simp [lowerStr]
      have h4 : ((b :: u) : List Char).isEmpty = false := by simp
      simp only [h3, h4, if_false, Bool.false_eq_true]
      exact lastSeg_lower _

theorem patMatches_lower (rel base : List Char) (d : Bool) (raw : List Char) :
    exclude.patMatches true rel base d raw = exclude.patMatches false rel base d (lowerStr raw) := by
  rw [exclude.patMatches, exclude.patMatches, trim_lower]
  generalize trimSpaceS raw = t
  cases t with
  | nil => simp [lowerStr]
  | cons a u => simp [lowerStr, exclude.lowerIf]

theorem patMatches_comp (rel base : List Char) (d : Bool) :
    (exclude.patMatches false rel base d ∘ lowerStr) = exclude.patMatches true rel base d :=
  funext fun raw => (patMatches_lower rel base d raw).symm

/-- C7: the pattern `*.LOG` excludes the file `x.log` iff `ignoreCase` is set,
always excludes `x.LOG`, and case-insensitive matching is exactly
case-sensitive matching of the lowered pattern list against the lowered
candidate (same grammar, both sides lowered before comparison). -/
theorem spec_C7 :
    (∀ ic : Bool,
      exclude.ShouldExclude
        (exclude.BuildMatcherNoFiles ["*.LOG".toList] ic) ("x.log".toList) false = ic)
    ∧ (∀ ic : Bool,
        exclude.ShouldExclude
          (exclude.BuildMatcherNoFiles ["*.LOG".toList] ic) ("x.LOG".toList) false = true)
    ∧ (∀ (pats : List (List Char)) (path : List Char) (d : Bool),
        exclude.ShouldExclude (exclude.BuildMatcherNoFiles pats true) path d
          = exclude.ShouldExclude
              (exclude.BuildMatcherNoFiles (pats.map lowerStr) false) (lowerStr path) d) := by
  refine ⟨fun ic => by cases ic <;> decide, fun ic => by cases ic <;> decide, ?_⟩
  intro pats path d
  rw [exclude.ShouldExclude, exclude.ShouldExclude]
  simp [exclude.BuildMatcherNoFiles, exclude.lowerIf, base_lower, List.any_map,
    patMatches_comp]

/-- C10: a matcher with no gitignore rules whose ad-hoc patterns all trim to
the empty string excludes nothing. -/
theorem spec_C10 (pats : List (List Char)) (ic : Bool) (path : List Char) (isDir : Bool)
    (h : ∀ p ∈ pats, trimSpaceS p = []) :
    exclude.ShouldExclude (exclude.BuildMatcherNoFiles pats ic) path isDir = false := by
  simp only [exclude.ShouldExclude, exclude.BuildMatcherNoFiles, Bool.false_or]
  rw [List.any_eq_false]
  intro p hp
  rw [exclude.patMatches, h p hp]
  simp

/-- C10, witness at `pats = [" ", ""]`, `path = "a/b"`, `isDir = false`. -/
theorem spec_C10_witness :
    (∀ p ∈ ([" ".toList, "".toList] : List (List Char)), trimSpaceS p = [])
    ∧ exclude.ShouldExclude
        (exclude.BuildMatcherNoFiles [" ".toList, "".toList] true) ("a/b".toList) false
        = false :=
  ⟨by decide, spec_C10 [" ".toList, "".toList] true ("a/b".toList) false (by decide)⟩

/-! ## Collector state invariant (for C5 and C8) -/

namespace collector

/-- The collection-state invariant: the result has no duplicates, contains
only paths the matcher does not exclude (as files), and agrees with the seen
set. -/
def SInv (m : exclude.ExcludeMatcher) (st : CState) : Prop :=
  st.result.Nodup
    ∧ (∀ p ∈ st.result, exclude.ShouldExclude m p false = false)
    ∧ (∀ p, p ∈ st.seen ↔ p ∈ st.result)

theorem sinv_init (m : exclude.ExcludeMatcher) : SInv m ⟨[], [], []⟩ := by
  refine ⟨List.nodup_nil, ?_, ?_⟩ <;> simp

theorem addPath_sinv {m : exclude.ExcludeMatcher} {st : CState} {p : List Char}
    (h : SInv m st) (hex : exclude.ShouldExclude m p false = false)
    (hseen : st.seen.contains p = false) : SInv m (addPath st p) := by
  obtain ⟨hnd, hexc, hiff⟩ := h
  have hpnotin : p ∉ st.result := by
    intro hmem
    have : st.seen.contains p = true := contains_mem.mpr ((hiff p).mpr hmem)
    rw [this] at hseen
    exact Bool.noConfusion hseen
  refine ⟨?_, ?_, ?_⟩
  · rw [addPath]
    rw [List.nodup_append]
    refine ⟨hnd, List.nodup_singleton p, ?_⟩
    intro a ha hap
    rw [List.mem_singleton] at hap
    exact hpnotin (hap ▸ ha)
  · intro q hq
    rw [addPath] at hq
    rcases List.mem_append.mp hq with hq | hq
    · exact hexc q hq
    · rw [List.mem_singleton] at hq
      exact hq ▸ hex
  · intro q
    rw [addPath]
    simp only [List.mem_cons, List.mem_append, List.mem_singleton]
    rw [hiff q]
    tauto

theorem walkFileStep_sinv (m : exclude.ExcludeMatcher) (path : List Char) (st : CState)
    (h : SInv m st) : SInv m (walkFileStep m path st) := by
  rw [walkFileStep]
  by_cases hex : exclude.ShouldExclude m path false = true
  · simp [hex, h]
  · have hex' : exclude.ShouldExclude m path false = false := by
      revert hex; cases exclude.ShouldExclude m path false <;> simp
    cases hseen : st.seen.contains path
    · simpa [hex', hseen] using addPath_sinv h hex' hseen
    · simp [hex', hseen, h]

theorem globFileStep_sinv (ds : List Char → List Char → Bool) (m : exclude.ExcludeMatcher)
    (ic : Bool) (pattern path : List Char) (st : CState) (h : SInv m st) :
    SInv m (globFileStep ds m ic pattern path st) := by
  rw [globFileStep]
  by_cases hex : exclude.ShouldExclude m path false = true
  · simp [hex, h]
  · have hex' : exclude.ShouldExclude m path false = false := by
      revert hex; cases exclude.ShouldExclude m path false <;> simp
    cases hm : globMatched ds ic pattern path
    · simp [hex', hm, h]
    · cases hseen : st.seen.contains path
      · simpa [hex', hm, hseen] using addPath_sinv h hex' hseen
      · simp [hex', hm, hseen, h]

theorem walkF_sinv (m : exclude.ExcludeMatcher) :
    ∀ (fuel : Nat) (path : List Char) (x : FSTree ⊕ FSList) (st : CState),
      SInv m st → SInv m (walkF m fuel path x st) := by
  intro fuel
  induction fuel with
  | zero => intro path x st h; simpa [walkF] using h
  | succ n ih =>
    intro path x st h
    cases x with
    | inl t =>
      cases t with
      | file nm => simpa [walkF] using walkFileStep_sinv m path st h
      | dir nm ch =>
        by_cases hex : exclude.ShouldExclude m path true = true
        · simpa [walkF, hex] using h
        · have hex' : exclude.ShouldExclude m path true = false := by
            revert hex; cases exclude.ShouldExclude m path true <;> simp
          simpa [walkF, hex'] using ih path (.inr ch) st h
    | inr ch =>
      cases ch with
      | nil => simpa [walkF] using h
      | cons c cs =>
        simpa [walkF] using
          ih path (.inr cs) _ (ih (joinPath path c.name) (.inl c) st h)

theorem globWalkF_sinv (ds : List Char → List Char → Bool) (m : exclude.ExcludeMatcher)
    (ic : Bool) (pattern : List Char) :
    ∀ (fuel : Nat) (path : List Char) (x : FSTree ⊕ FSList) (st : CState),
      SInv m st → SInv m (globWalkF ds m ic pattern fuel path x st) := by
  intro fuel
  induction fuel with
  | zero => intro path x st h; simpa [globWalkF] using h
  | succ n ih =>
    intro path x st h
    cases x with
    | inl t =>
      cases t with
      | file nm => simpa [globWalkF] using globFileStep_sinv ds m ic pattern path st h
      | dir nm ch =>
        by_cases hex : exclude.ShouldExclude m path true = true
        · simpa [globWalkF, hex] using h
        · have hex' : exclude.ShouldExclude m path true = false := by
            revert hex; cases exclude.ShouldExclude m path true <;> simp
          simpa [globWalkF, hex'] using ih path (.inr ch) st h
    | inr ch =>
      cases ch with
      | nil => simpa [globWalkF] using h
      | cons c cs =>
        simpa [globWalkF] using
          ih path (.inr cs) _ (ih (joinPath path c.name) (.inl c) st h)

theorem collectToken_sinv (ds : List Char → List Char → Bool) (fs : FSList)
    (m : exclude.ExcludeMatcher) (ic : Bool) (fuel : Nat) (st : CState) (path : List Char)
    (h : SInv m st) : SInv m (collectToken ds fs m ic fuel st path) := by
  rw [collectToken]
  cases hstat : statPath fs path with
  | some info =>
    cases hdir : info.isDir
    · simp only [hdir, if_false, Bool.false_eq_true]
      by_cases hex : exclude.ShouldExclude m path false = true
      · simp [hex, h]
      · have hex' : exclude.ShouldExclude m path false = false := by
          revert hex; cases exclude.ShouldExclude m path false <;> simp
        cases hseen : st.seen.contains path
        · simpa [hex', hseen] using addPath_sinv h hex' hseen
        · simp [hex', hseen, h]
    · simpa [hdir] using walkF_sinv m fuel path (.inl info) st h
  | none =>
    cases hg : isGlobPattern path
    · simp only [hg, if_false, Bool.false_eq_true]
      obtain ⟨hnd, hexc, hiff⟩ := h
      exact ⟨hnd, hexc, hiff⟩
    · simpa [hg] using globWalkF_sinv ds m ic path fuel ['.'] (.inl (.dir ['.'] fs)) st h

theorem collectLoop_sinv (ds : List Char → List Char → Bool) (fs : FSList)
    (m : exclude.ExcludeMatcher) (ic : Bool) (fuel : Nat) :
    ∀ (tokens : List (List Char)) (st : CState),
      SInv m st → SInv m (collectLoop ds fs m ic fuel tokens st) := by
  intro tokens
  induction tokens with
  | nil => intro st h; simpa [collectLoop] using h
  | cons p ps ih =>
    intro st h
    simpa [collectLoop] using ih _ (collectToken_sinv ds fs m ic fuel st p h)

/-- Oracle standing in for the doublestar library in concrete scenarios where
it is never consulted. -/
def dsNone : List Char → List Char → Bool := fun _ _ => false

/-- Demo tree: `src/app.go` under the working directory. -/
def fsDemo : FSList :=
  .cons (.dir ("src".toList) (.cons (.file ("app.go".toList)) .nil)) .nil

end collector

/-- C5: for every file system, token list and matcher, the `CollectFiles`
result contains no path that `ShouldExclude` excludes (as a file) and no
duplicates; concretely, the same literal path given twice, or a path together
with its containing directory, contributes exactly one entry. -/
theorem spec_C5 :
    (∀ (ds : List Char → List Char → Bool) (fs : collector.FSList)
       (m : exclude.ExcludeMatcher) (ic : Bool) (fuel : Nat) (tokens : List (List Char)),
      (collector.collectLoop ds fs m ic fuel tokens ⟨[], [], []⟩).result.Nodup
        ∧ ∀ p ∈ (collector.collectLoop ds fs m ic fuel tokens ⟨[], [], []⟩).result,
            exclude.ShouldExclude m p false = false)
    ∧ collector.CollectFiles collector.dsNone collector.fsDemo
        ["src/app.go".toList, "src/app.go".toList]
        (exclude.BuildMatcherNoFiles [] false) false 100
        = Except.ok (["src/app.go".toList], [])
    ∧ collector.CollectFiles collector.dsNone collector.fsDemo
        ["src/app.go".toList, "src".toList]
        (exclude.BuildMatcherNoFiles [] false) false 100
        = Except.ok (["src/app.go".toList], []) := by
  refine ⟨?_, rfl, rfl⟩
  intro ds fs m ic fuel tokens
  obtain ⟨hnd, hexc, -⟩ :=
    collector.collectLoop_sinv ds fs m ic fuel tokens ⟨[], [], []⟩ (collector.sinv_init m)
  exact ⟨hnd, hexc⟩

/-! ## C9: unresolvable tokens warn and contribute nothing -/

/-- C9: a token that does not exist on disk and contains no glob
metacharacter produces exactly one warning naming the token, contributes no
path, and `CollectFiles` still returns without error. -/
theorem spec_C9 (ds : List Char → List Char → Bool) (fs : collector.FSList)
    (m : exclude.ExcludeMatcher) (ic : Bool) (fuel : Nat) (tok : List Char)
    (hstat : (collector.statPath fs tok).isNone = true)
    (hglob : collector.isGlobPattern tok = false) :
    collector.CollectFiles ds fs [tok] m ic fuel
      = Except.ok ([], [collector.warnMsg tok]) := by
  have hstat' : collector.statPath fs tok = none := Option.isNone_iff_eq_none.mp hstat
  simp [collector.CollectFiles, collector.collectLoop, collector.collectToken, hstat', hglob]

/-- C9, witness at the spec's scenario token `missing/literal/path`. -/
theorem spec_C9_witness :
    ((collector.statPath collector.fsDemo ("missing/literal/path".toList)).isNone = true
      ∧ collector.isGlobPattern ("missing/literal/path".toList) = false)
    ∧ collector.CollectFiles collector.dsNone collector.fsDemo
        ["missing/literal/path".toList] (exclude.BuildMatcherNoFiles [] false) false 100
      = Except.ok ([], [collector.warnMsg ("missing/literal/path".toList)]) :=
  ⟨⟨by decide, by decide⟩,
    spec_C9 collector.dsNone collector.fsDemo (exclude.BuildMatcherNoFiles [] false) false 100
      ("missing/literal/path".toList) (by decide) (by decide)⟩

/-! ## C6: sorting -/

namespace app

theorem lexLt_asymm : ∀ a b : List Char, lexLt a b = true → lexLt b a = false := by
  intro a
  induction a with
  | nil => intro b h; cases b <;> simp [lexLt]
  | cons x xs ih =>
    intro b h
    cases b with
    | nil => simp [lexLt] at h
    | cons y ys =>
      rw [lexLt] at h ⊢
      rcases lt_trichotomy x y with hxy | hxy | hxy
      · rw [if_neg (lt_asymm hxy), if_pos hxy]
      · subst hxy
        rw [if_neg (lt_irrefl x), if_neg (lt_irrefl x)] at h ⊢
        exact ih ys h
      · rw [if_neg (lt_asymm hxy), if_pos hxy] at h
        exact absurd h (by simp)

theorem lexLe_flip {x y : List Char} (h : lexLe x y = false) : lexLe y x = true := by
  rw [lexLe] at h ⊢
  have hlt : lexLt y x = true := by
    revert h; cases lexLt y x <;> simp
  rw [lexLt_asymm y x hlt]
  rfl

theorem mem_insertSorted {p x : List Char} : ∀ l, p ∈ insertSorted x l ↔ p = x ∨ p ∈ l := by
  intro l
  induction l with
  | nil => simp [insertSorted]
  | cons y ys ih =>
    rw [insertSorted]
    cases hxy : lexLe x y
    · simp only [hxy, Bool.false_eq_true, if_false, List.mem_cons, ih]
      tauto
    · simp only [hxy, if_true, List.mem_cons]

theorem sortedLex_cons_cons (x y : List Char) (r : List (List Char)) :
    sortedLex (x :: y :: r) = (lexLe x y && sortedLex (y :: r)) := rfl

theorem sortedLex_insertSorted (x : List Char) :
    ∀ l, sortedLex l = true → sortedLex (insertSorted x l) = true := by
  intro l
  induction l with
  | nil => intro _; rfl
  | cons y ys ih =>
    intro h
    rw [insertSorted]
    cases hxy : lexLe x y
    · simp only [hxy, Bool.false_eq_true, if_false]
      cases ys with
      | nil =>
        show sortedLex (y :: insertSorted x []) = true
        rw [insertSorted, sortedLex_cons_cons]
        simp [lexLe_flip hxy, sortedLex]
      | cons z zs =>
        rw [sortedLex_cons_cons, Bool.and_eq_true_iff] at h
        obtain ⟨hyz, hzs⟩ := h
        have hrec := ih hzs
        rw [insertSorted] at hrec
        show sortedLex (y :: insertSorted x (z :: zs)) = true
        rw [insertSorted]
        cases hxz : lexLe x z
        · rw [hxz] at hrec
          simp only [Bool.false_eq_true, if_false] at hrec
          simp only [hxz, Bool.false_eq_true, if_false]
          rw [sortedLex_cons_cons, Bool.and_eq_true_iff]
          exact ⟨hyz, hrec⟩
        · rw [hxz] at hrec
          simp only [if_true] at hrec
          simp only [hxz, if_true]
          rw [sortedLex_cons_cons, Bool.and_eq_true_iff]
          exact ⟨lexLe_flip hxy, hrec⟩
    · simp only [hxy, if_true]
      rw [sortedLex_cons_cons, Bool.and_eq_true_iff]
      exact ⟨hxy, h⟩

theorem sortedLex_sortStrings : ∀ l, sortedLex (sortStrings l) = true := by
  intro l
  induction l with
  | nil => rfl
  | cons x xs ih => exact sortedLex_insertSorted x _ ih

theorem mem_sortStrings {p : List Char} : ∀ l, p ∈ sortStrings l ↔ p ∈ l := by
  intro l
  induction l with
  | nil => simp [sortStrings]
  | cons x xs ih =>
    rw [sortStrings, mem_insertSorted]
    simp [ih]

end app

/-- C6, counterexample: two literal-file tokens given in reverse lexicographic
order come back from `CollectFiles` in exactly that (descending) order — the
collector itself does not sort. -/
theorem spec_C6_cex :
    collector.CollectFiles collector.dsNone
      (.cons (.file ("b.txt".toList)) (.cons (.file ("a.txt".toList)) .nil))
      ["b.txt".toList, "a.txt".toList] (exclude.BuildMatcherNoFiles [] false) false 100
      = Except.ok (["b.txt".toList, "a.txt".toList], [])
    ∧ app.sortedLex ["b.txt".toList, "a.txt".toList] = false :=
  ⟨rfl, by decide⟩

/-- C6, amended: `CollectFiles` returns paths in discovery order; the sort is
performed by `Run` (`sort.Strings(files)`, pkg/clipcat/app.go line 32), and
the sorted list it uses from then on is in ascending lexicographic order and
contains exactly the collected paths. -/
theorem spec_C6 (ds : List Char → List Char → Bool) (fs : collector.FSList)
    (m : exclude.ExcludeMatcher) (ic : Bool) (fuel : Nat) (tokens : List (List Char)) :
    app.sortedLex
        (app.sortStrings (collector.collectLoop ds fs m ic fuel tokens ⟨[], [], []⟩).result)
      = true
    ∧ ∀ p, p ∈ app.sortStrings (collector.collectLoop ds fs m ic fuel tokens ⟨[], [], []⟩).result
        ↔ p ∈ (collector.collectLoop ds fs m ic fuel tokens ⟨[], [], []⟩).result :=
  ⟨app.sortedLex_sortStrings _, fun _ => app.mem_sortStrings _⟩

/-! ## C8: exclusion monotonicity -/

theorem shouldExclude_mono (g : Option (List Char → Bool)) (pats1 pats2 : List (List Char))
    (ic : Bool) (hsub : ∀ p ∈ pats1, p ∈ pats2) (path : List Char) (d : Bool)
    (h : exclude.ShouldExclude ⟨g, pats1, ic⟩ path d = true) :
    exclude.ShouldExclude ⟨g, pats2, ic⟩ path d = true := by
  simp only [exclude.ShouldExclude] at h ⊢
  rw [Bool.or_eq_true] at h ⊢
  rcases h with h | h
  · exact Or.inl h
  · right
    rw [List.any_eq_true] at h ⊢
    obtain ⟨pat, hmem, hp⟩ := h
    exact ⟨pat, hsub pat hmem, hp⟩

namespace collector

theorem addPath_extends {st : CState} {q p : List Char} (h : p ∈ st.result) :
    p ∈ (addPath st q).result := by
  rw [addPath]
  exact List.mem_append_left _ h

theorem walkFileStep_extends (m : exclude.ExcludeMatcher) (path : List Char) (st : CState)
    {p : List Char} (h : p ∈ st.result) : p ∈ (walkFileStep m path st).result := by
  rw [walkFileStep]
  split
  · exact h
  · split
    · exact addPath_extends h
    · exact h

theorem globFileStep_extends (ds : List Char → List Char → Bool) (m : exclude.ExcludeMatcher)
    (ic : Bool) (pattern path : List Char) (st : CState) {p : List Char}
    (h : p ∈ st.result) : p ∈ (globFileStep ds m ic pattern path st).result := by
  rw [globFileStep]
  split
  · exact h
  · split
    · split
      · exact addPath_extends h
      · exact h
    · exact h

theorem walkF_extends (m : exclude.ExcludeMatcher) :
    ∀ (fuel : Nat) (path : List Char) (x : FSTree ⊕ FSList) (st : CState) (p : List Char),
      p ∈ st.result → p ∈ (walkF m fuel path x st).result := by
  intro fuel
  induction fuel with
  | zero => intro path x st p h; simpa [walkF] using h
  | succ n ih =>
    intro path x st p h
    cases x with
    | inl t =>
      cases t with
      | file nm => simpa [walkF] using walkFileStep_extends m path st h
      | dir nm ch =>
        cases hex : exclude.ShouldExclude m path true
        · simpa [walkF, hex] using ih path (.inr ch) st p h
        · simpa [walkF, hex] using h
    | inr ch =>
      cases ch with
      | nil => simpa [walkF] using h
      | cons c cs =>
        simpa [walkF] using
          ih path (.inr cs) _ p (ih (joinPath path c.name) (.inl c) st p h)

theorem globWalkF_extends (ds : List Char → List Char → Bool) (m : exclude.ExcludeMatcher)
    (ic : Bool) (pattern : List Char) :
    ∀ (fuel : Nat) (path : List Char) (x : FSTree ⊕ FSList) (st : CState) (p : List Char),
      p ∈ st.result → p ∈ (globWalkF ds m ic pattern fuel path x st).result := by
  intro fuel
  induction fuel with
  | zero => intro path x st p h; simpa [globWalkF] using h
  | succ n ih =>
    intro path x st p h
    cases x with
    | inl t =>
      cases t with
      | file nm => simpa [globWalkF] using globFileStep_extends ds m ic pattern path st h
      | dir nm ch =>
        cases hex : exclude.ShouldExclude m path true
        · simpa [globWalkF, hex] using ih path (.inr ch) st p h
        · simpa [globWalkF, hex] using h
    | inr ch =>
      cases ch with
      | nil => simpa [globWalkF] using h
      | cons c cs =>
        simpa [globWalkF] using
          ih path (.inr cs) _ p (ih (joinPath path c.name) (.inl c) st p h)

/-- The shared append-if-unseen step, compared across the two runs of C8's
monotonicity argument: anything the restricted run adds is present in the
permissive run's state. -/
theorem addIfUnseen_mono {m1 : exclude.ExcludeMatcher} {st1 st2 : CState} {path : List Char}
    (h1 : SInv m1 st1) (hle : ∀ p, p ∈ st2.result → p ∈ st1.result) :
    ∀ p, p ∈ (if !st2.seen.contains path then addPath st2 path else st2).result →
      p ∈ (if !st1.seen.contains path then addPath st1 path else st1).result := by
  cases hs2 : st2.seen.contains path
  · cases hs1 : st1.seen.contains path
    · simp only [hs1, hs2, Bool.not_false, if_true]
      intro p hp
      rw [addPath] at hp ⊢
      rcases List.mem_append.mp hp with hp | hp
      · exact List.mem_append_left _ (hle p hp)
      · exact List.mem_append_right _ hp
    · simp only [hs1, hs2, Bool.not_false, Bool.not_true, Bool.false_eq_true, if_true, if_false]
      intro p hp
      rw [addPath] at hp
      rcases List.mem_append.mp hp with hp | hp
      · exact hle p hp
      · rw [List.mem_singleton] at hp
        subst hp
        exact (h1.2.2 p).mp (contains_mem.mp hs1)
  · simp only [hs2, Bool.not_true, Bool.false_eq_true, if_false]
    intro p hp
    have hp1 := hle p hp
    split
    · exact addPath_extends hp1
    · exact hp1

theorem walkFileStep_mono {m1 m2 : exclude.ExcludeMatcher} {path : List Char}
    (hmono : ∀ (q : List Char) (d : Bool),
      exclude.ShouldExclude m1 q d = true → exclude.ShouldExclude m2 q d = true)
    {st1 st2 : CState} (h1 : SInv m1 st1)
    (hle : ∀ p, p ∈ st2.result → p ∈ st1.result) :
    ∀ p, p ∈ (walkFileStep m2 path st2).result → p ∈ (walkFileStep m1 path st1).result := by
  rw [walkFileStep, walkFileStep]
  cases hex2 : exclude.ShouldExclude m2 path false
  · have hex1 : exclude.ShouldExclude m1 path false = false := by
      cases hx : exclude.ShouldExclude m1 path false
      · rfl
      · rw [hmono path false hx] at hex2; exact Bool.noConfusion hex2
    simp only [hex1, hex2, Bool.false_eq_true, if_false]
    exact addIfUnseen_mono h1 hle
  · simp only [hex2, if_true]
    intro p hp
    have hp1 := hle p hp
    split
    · exact hp1
    · split
      · exact addPath_extends hp1
      · exact hp1

theorem globFileStep_mono (ds : List Char → List Char → Bool) {m1 m2 : exclude.ExcludeMatcher}
    (ic : Bool) {pattern path : List Char}
    (hmono : ∀ (q : List Char) (d : Bool),
      exclude.ShouldExclude m1 q d = true → exclude.ShouldExclude m2 q d = true)
    {st1 st2 : CState} (h1 : SInv m1 st1)
    (hle : ∀ p, p ∈ st2.result → p ∈ st1.result) :
    ∀ p, p ∈ (globFileStep ds m2 ic pattern path st2).result →
      p ∈ (globFileStep ds m1 ic pattern path st1).result := by
  rw [globFileStep, globFileStep]
  cases hex2 : exclude.ShouldExclude m2 path false
  · have hex1 : exclude.ShouldExclude m1 path false = false := by
      cases hx : exclude.ShouldExclude m1 path false
      · rfl
      · rw [hmono path false hx] at hex2; exact Bool.noConfusion hex2
    simp only [hex1, hex2, Bool.false_eq_true, if_false]
    cases hm : globMatched ds ic pattern path
    · simp only [hm, Bool.false_eq_true, if_false]
      exact hle
    · simp only [hm, if_true]
      exact addIfUnseen_mono h1 hle
  · simp only [hex2, if_true]
    intro p hp
    have hp1 := hle p hp
    split
    · exact hp1
    · split
      · split
        · exact addPath_extends hp1
        · exact hp1
      · exact hp1

theorem walkF_mono {m1 m2 : exclude.ExcludeMatcher}
    (hmono : ∀ (q : List Char) (d : Bool),
      exclude.ShouldExclude m1 q d = true → exclude.ShouldExclude m2 q d = true) :
    ∀ (fuel : Nat) (path : List Char) (x : FSTree ⊕ FSList) (st1 st2 : CState),
      SInv m1 st1 → SInv m2 st2 → (∀ p, p ∈ st2.result → p ∈ st1.result) →
      ∀ p, p ∈ (walkF m2 fuel path x st2).result → p ∈ (walkF m1 fuel path x st1).result := by
  intro fuel
  induction fuel with
  | zero => intro path x st1 st2 _ _ hle p hp; simpa [walkF] using hle p (by simpa [walkF] using hp)
  | succ n ih =>
    intro path x st1 st2 h1 h2 hle p hp
    cases x with
    | inl t =>
      cases t with
      | file nm =>
        rw [walkF] at hp ⊢
        exact walkFileStep_mono hmono h1 hle p hp
      | dir nm ch =>
        cases hex2 : exclude.ShouldExclude m2 path true
        · have hex1 : exclude.ShouldExclude m1 path true = false := by
            cases hx : exclude.ShouldExclude m1 path true
            · rfl
            · rw [hmono path true hx] at hex2; exact Bool.noConfusion hex2
          rw [walkF] at hp ⊢
          simp only [hex1, hex2, Bool.false_eq_true, if_false] at hp ⊢
          exact ih path (.inr ch) st1 st2 h1 h2 hle p hp
        · rw [walkF] at hp ⊢
          simp only [hex2, if_true] at hp
          have hp1 := hle p hp
          cases hex1 : exclude.ShouldExclude m1 path true
          · simp only [hex1, Bool.false_eq_true, if_false]
            exact walkF_extends m1 n path (.inr ch) st1 p hp1
          · simp only [hex1, if_true]
            exact hp1
    | inr ch =>
      cases ch with
      | nil =>
        rw [walkF] at hp ⊢
        exact hle p hp
      | cons c cs =>
        rw [walkF] at hp ⊢
        exact ih path (.inr cs) _ _
          (walkF_sinv m1 n (joinPath path c.name) (.inl c) st1 h1)
          (walkF_sinv m2 n (joinPath path c.name) (.inl c) st2 h2)
          (ih (joinPath path c.name) (.inl c) st1 st2 h1 h2 hle) p hp

theorem globWalkF_mono (ds : List Char → List Char → Bool) {m1 m2 : exclude.ExcludeMatcher}
    (ic : Bool) (pattern : List Char)
    (hmono : ∀ (q : List Char) (d : Bool),
      exclude.ShouldExclude m1 q d = true → exclude.ShouldExclude m2 q d = true) :
    ∀ (fuel : Nat) (path : List Char) (x : FSTree ⊕ FSList) (st1 st2 : CState),
      SInv m1 st1 → SInv m2 st2 → (∀ p, p ∈ st2.result → p ∈ st1.result) →
      ∀ p, p ∈ (globWalkF ds m2 ic pattern fuel path x st2).result →
        p ∈ (globWalkF ds m1 ic pattern fuel path x st1).result := by
  intro fuel
  induction fuel with
  | zero =>
    intro path x st1 st2 _ _ hle p hp
    simpa [globWalkF] using hle p (by simpa [globWalkF] using hp)
  | succ n ih =>
    intro path x st1 st2 h1 h2 hle p hp
    cases x with
    | inl t =>
      cases t with
      | file nm =>
        rw [globWalkF] at hp ⊢
        exact globFileStep_mono ds ic hmono h1 hle p hp
      | dir nm ch =>
        cases hex2 : exclude.ShouldExclude m2 path true
        · have hex1 : exclude.ShouldExclude m1 path true = false := by
            cases hx : exclude.ShouldExclude m1 path true
            · rfl
            · rw [hmono path true hx] at hex2; exact Bool.noConfusion hex2
          rw [globWalkF] at hp ⊢
          simp only [hex1, hex2, Bool.false_eq_true, if_false] at hp ⊢
          exact ih path (.inr ch) st1 st2 h1 h2 hle p hp
        · rw [globWalkF] at hp ⊢
          simp only [hex2, if_true] at hp
          have hp1 := hle p hp
          cases hex1 : exclude.ShouldExclude m1 path true
          · simp only [hex1, Bool.false_eq_true, if_false]
            exact globWalkF_extends ds m1 ic pattern n path (.inr ch) st1 p hp1
          · simp only [hex1, if_true]
            exact hp1
    | inr ch =>
      cases ch with
      | nil =>
        rw [globWalkF] at hp ⊢
        exact hle p hp
      | cons c cs =>
        rw [globWalkF] at hp ⊢
        exact ih path (.inr cs) _ _
          (globWalkF_sinv ds m1 ic pattern n (joinPath path c.name) (.inl c) st1 h1)
          (globWalkF_sinv ds m2 ic pattern n (joinPath path c.name) (.inl c) st2 h2)
          (ih (joinPath path c.name) (.inl c) st1 st2 h1 h2 hle) p hp

theorem collectToken_mono (ds : List Char → List Char → Bool) (fs : FSList)
    {m1 m2 : exclude.ExcludeMatcher} (ic : Bool) (fuel : Nat)
    (hmono : ∀ (q : List Char) (d : Bool),
      exclude.ShouldExclude m1 q d = true → exclude.ShouldExclude m2 q d = true)
    {st1 st2 : CState} (h1 : SInv m1 st1) (h2 : SInv m2 st2)
    (hle : ∀ p, p ∈ st2.result → p ∈ st1.result) (tok : List Char) :
    ∀ p, p ∈ (collectToken ds fs m2 ic fuel st2 tok).result →
      p ∈ (collectToken ds fs m1 ic fuel st1 tok).result := by
  rw [collectToken, collectToken]
  cases hstat : statPath fs tok with
  | some info =>
    cases hdir : info.isDir
    · simp only [hdir, Bool.false_eq_true, if_false]
      intro p hp
      cases hex2 : exclude.ShouldExclude m2 tok false
      · have hex1 : exclude.ShouldExclude m1 tok false = false := by
          cases hx : exclude.ShouldExclude m1 tok false
          · rfl
          · rw [hmono tok false hx] at hex2; exact Bool.noConfusion hex2
        simp only [hex1, hex2, Bool.not_false, Bool.true_and] at hp ⊢
        exact addIfUnseen_mono h1 hle p hp
      · simp only [hex2, Bool.not_true, Bool.false_and, Bool.false_eq_true, if_false] at hp
        have hp1 := hle p hp
        split
        · exact addPath_extends hp1
        · exact hp1
    · simp only [hdir, if_true]
      exact walkF_mono hmono fuel tok (.inl info) st1 st2 h1 h2 hle
  | none =>
    cases hg : isGlobPattern tok
    · simp only [hg, Bool.false_eq_true, if_false]
      exact hle
    · simp only [hg, if_true]
      exact globWalkF_mono ds ic tok hmono fuel ['.'] (.inl (.dir ['.'] fs)) st1 st2 h1 h2 hle

theorem collectLoop_mono (ds : List Char → List Char → Bool) (fs : FSList)
    {m1 m2 : exclude.ExcludeMatcher} (ic : Bool) (fuel : Nat)
    (hmono : ∀ (q : List Char) (d : Bool),
      exclude.ShouldExclude m1 q d = true → exclude.ShouldExclude m2 q d = true) :
    ∀ (tokens : List (List Char)) (st1 st2 : CState),
      SInv m1 st1 → SInv m2 st2 → (∀ p, p ∈ st2.result → p ∈ st1.result) →
      ∀ p, p ∈ (collectLoop ds fs m2 ic fuel tokens st2).result →
        p ∈ (collectLoop ds fs m1 ic fuel tokens st1).result := by
  intro tokens
  induction tokens with
  | nil =>
    intro st1 st2 _ _ hle p hp
    simpa [collectLoop] using hle p (by simpa [collectLoop] using hp)
  | cons tok toks ih =>
    intro st1 st2 h1 h2 hle p hp
    rw [collectLoop] at hp ⊢
    exact ih _ _
      (collectToken_sinv ds fs m1 ic fuel st1 tok h1)
      (collectToken_sinv ds fs m2 ic fuel st2 tok h2)
      (collectToken_mono ds fs ic fuel hmono h1 h2 hle tok) p hp

end collector

/-- C8: with the same gitignore rule set and the same flags, enlarging the
ad-hoc exclude pattern list never enlarges the collected set — every path
collected under the superset matcher is collected under the subset matcher. -/
theorem spec_C8 (ds : List Char → List Char → Bool) (fs : collector.FSList)
    (g : Option (List Char → Bool)) (pats1 pats2 : List (List Char)) (ic : Bool)
    (fuel : Nat) (tokens : List (List Char))
    (hsub : ∀ p ∈ pats1, p ∈ pats2) :
    ∀ p, p ∈ (collector.collectLoop ds fs ⟨g, pats2, ic⟩ ic fuel tokens ⟨[], [], []⟩).result →
      p ∈ (collector.collectLoop ds fs ⟨g, pats1, ic⟩ ic fuel tokens ⟨[], [], []⟩).result :=
  collector.collectLoop_mono ds fs ic fuel
    (shouldExclude_mono g pats1 pats2 ic hsub) tokens ⟨[], [], []⟩ ⟨[], [], []⟩
    (collector.sinv_init _) (collector.sinv_init _) (fun _ h => h)

/-! ## C4: directory pruning -/

theorem prefix_concat_cases {α : Type} :
    ∀ {l' l : List α} {a : α}, l <+: l' ++ [a] → l = l' ++ [a] ∨ l <+: l' := by
  intro l'
  induction l' with
  | nil =>
    intro l a h
    cases l with
    | nil => right; exact List.nil_prefix
    | cons x xs =>
      rcases List.cons_prefix_cons.mp h with ⟨rfl, hxs⟩
      have : xs = [] := List.prefix_nil.mp hxs
      left
      rw [this]
      rfl
  | cons b bs ih =>
    intro l a h
    cases l with
    | nil => right; exact List.nil_prefix
    | cons x xs =>
      rw [List.cons_append] at h
      rcases List.cons_prefix_cons.mp h with ⟨rfl, hxs⟩
      rcases ih hxs with h1 | h1
      · left
        rw [List.cons_append, h1]
      · right
        exact List.cons_prefix_cons.mpr ⟨rfl, h1⟩

namespace collector

/-- `underD D p`: the path `p` lies strictly inside the directory path `D`
(that is, `D ++ "/"` is a prefix of `p`). -/
def underD (D p : List Char) : Bool := (D ++ [osSep]).isPrefixOf p

theorem not_under_of_sep_free {D name : List Char}
    (hn : name.contains osSep = false) : underD D name = false := by
  cases hu : underD D name
  · rfl
  · exfalso
    rw [underD] at hu
    have hpre := List.isPrefixOf_iff_prefix.mp hu
    have : osSep ∈ name :=
      List.Sublist.mem (List.mem_append_right D (List.mem_singleton_self _)) hpre.sublist
    rw [contains_mem.mpr this] at hn
    exact Bool.noConfusion hn

theorem not_under_dot (D : List Char) : underD D ['.'] = false :=
  not_under_of_sep_free (by decide)

theorem not_under_join {D path name : List Char} (hn : name.contains osSep = false)
    (h1 : underD D path = false) (h2 : path ≠ D) :
    underD D (path ++ osSep :: name) = false := by
  cases hu : underD D (path ++ osSep :: name)
  · rfl
  · exfalso
    rw [underD] at hu
    have hpre : (D ++ [osSep]) <+: ((path ++ [osSep]) ++ name) := by
      have := List.isPrefixOf_iff_prefix.mp hu
      rwa [List.append_cons path osSep name] at this
    rcases List.prefix_or_prefix_of_prefix hpre
        (List.prefix_append (path ++ [osSep]) name) with hc | hc
    · rcases prefix_concat_cases hc with he | hc2
      · exact h2 (List.append_cancel_right he).symm
      · rw [underD, List.isPrefixOf_iff_prefix.mpr hc2] at h1
        exact Bool.noConfusion h1
    · rcases prefix_concat_cases hc with he | hc2
      · exact h2 (List.append_cancel_right he)
      · obtain ⟨t, ht⟩ := hc2
        rw [← ht] at hpre
        have h5 : path ++ ([osSep] ++ (t ++ [osSep])) <+: path ++ ([osSep] ++ name) := by
          simpa [List.append_assoc] using hpre
        have h6 := (List.prefix_append_right_inj path).mp h5
        have htn : (t ++ [osSep]) <+: name := (List.prefix_append_right_inj [osSep]).mp h6
        have : osSep ∈ name :=
          List.Sublist.mem (List.mem_append_right t (List.mem_singleton_self _)) htn.sublist
        rw [contains_mem.mpr this] at hn
        exact Bool.noConfusion hn

/- Well-formed filesystem trees: every entry name is free of the path
separator (as `os.Stat` / `filepath.Walk` guarantee for real directory
entries). -/
mutual
inductive WfT : FSTree → Prop
  | file (n : List Char) : WfT (.file n)
  | dir (n : List Char) (ch : FSList) : WfL ch → WfT (.dir n ch)
inductive WfL : FSList → Prop
  | nil : WfL .nil
  | cons (c : FSTree) (cs : FSList) :
      c.name.contains osSep = false → WfT c → WfL cs → WfL (.cons c cs)
end

/-- Well-formedness of a walk item. -/
def WfX : FSTree ⊕ FSList → Prop
  | .inl t => WfT t
  | .inr ch => WfL ch

theorem findByName_wf : ∀ (fs : FSList), WfL fs → ∀ (s : List Char) (t : FSTree),
    findByName fs s = some t → WfT t
  | .nil, _, s, t, h => by simp [findByName] at h
  | .cons c cs, hwf, s, t, h => by
    rw [findByName] at h
    cases hwf with
    | cons c cs hn hc hcs =>
      cases hcn : c.name == s
      · rw [hcn] at h
        simp only [Bool.false_eq_true, if_false] at h
        exact findByName_wf cs hcs s t h
      · rw [hcn] at h
        simp only [if_true, Option.some.injEq] at h
        exact h ▸ hc

theorem findEntry_wf : ∀ (segs : List (List Char)) (fs : FSList), WfL fs →
    ∀ t : FSTree, findEntry fs segs = some t → WfT t := by
  intro segs
  induction segs with
  | nil => intro fs _ t h; simp [findEntry] at h
  | cons s rest ih =>
    intro fs hwf t h
    rw [findEntry] at h
    cases hre : rest.isEmpty
    · rw [hre] at h
      simp only [Bool.false_eq_true, if_false] at h
      cases hfind : findByName fs s with
      | none => rw [hfind] at h; exact absurd h (by simp)
      | some u =>
        rw [hfind] at h
        cases u with
        | file nm => exact absurd h (by simp)
        | dir nm ch =>
          have hu : WfT (.dir nm ch) := findByName_wf fs hwf s _ hfind
          cases hu with
          | dir _ _ hch => exact ih ch hch t h
    · rw [hre] at h
      simp only [if_true] at h
      exact findByName_wf fs hwf s t h

theorem statPath_wf {fs : FSList} (hwf : WfL fs) {p : List Char} {t : FSTree}
    (h : statPath fs p = some t) : WfT t := by
  rw [statPath] at h
  cases hd : p == ['.']
  · rw [hd] at h
    simp only [Bool.false_eq_true, if_false] at h
    exact findEntry_wf (splitSeg p) fs hwf t h
  · rw [hd] at h
    simp only [if_true, Option.some.injEq] at h
    exact h ▸ WfT.dir ['.'] fs hwf

theorem walkF_avoid {m : exclude.ExcludeMatcher} {D : List Char}
    (hD : exclude.ShouldExclude m D true = true) :
    ∀ (fuel : Nat) (path : List Char) (x : FSTree ⊕ FSList) (st : CState),
      WfX x → underD D path = false → (∀ ch, x = .inr ch → path ≠ D) →
      (∀ p ∈ st.result, underD D p = false) →
      ∀ p ∈ (walkF m fuel path x st).result, underD D p = false := by
  intro fuel
  induction fuel with
  | zero => intro path x st _ _ _ hst; simpa [walkF] using hst
  | succ n ih =>
    intro path x st hwx hpath hne hst
    cases x with
    | inl t =>
      cases t with
      | file nm =>
        intro p hp
        rw [walkF, walkFileStep] at hp
        split at hp
        · exact hst p hp
        · split at hp
          · rw [addPath] at hp
            rcases List.mem_append.mp hp with hp | hp
            · exact hst p hp
            · rw [List.mem_singleton] at hp
              exact hp ▸ hpath
          · exact hst p hp
      | dir nm ch =>
        cases hex : exclude.ShouldExclude m path true
        · have hpd : path ≠ D := by
            intro he
            rw [he, hD] at hex
            exact Bool.noConfusion hex
          intro p hp
          rw [walkF] at hp
          simp only [hex, Bool.false_eq_true, if_false] at hp
          have hch : WfL ch := by cases hwx with | dir _ _ h => exact h
          exact ih path (.inr ch) st hch hpath (fun _ _ => hpd) hst p hp
        · intro p hp
          rw [walkF] at hp
          simp only [hex, if_true] at hp
          exact hst p hp
    | inr ch =>
      cases ch with
      | nil =>
        intro p hp
        rw [walkF] at hp
        exact hst p hp
      | cons c cs =>
        intro p hp
        rw [walkF] at hp
        have hpd : path ≠ D := hne (.cons c cs) rfl
        obtain ⟨hn, hwc, hwcs⟩ : c.name.contains osSep = false ∧ WfT c ∧ WfL cs := by
          cases hwx with | cons c cs hn hc hcs => exact ⟨hn, hc, hcs⟩
        have hchild : underD D (joinPath path c.name) = false := by
          rw [joinPath]
          cases hdot : path == ['.']
          · simp only [hdot, Bool.false_eq_true, if_false]
            exact not_under_join hn hpath hpd
          · simp only [hdot, if_true]
            exact not_under_of_sep_free hn
        exact ih path (.inr cs) _ hwcs hpath (fun _ _ => hpd)
          (ih (joinPath path c.name) (.inl c) st hwc hchild
            (fun _ h => Sum.noConfusion h) hst) p hp

theorem globWalkF_avoid (ds : List Char → List Char → Bool)
    {m : exclude.ExcludeMatcher} (ic : Bool) (pattern : List Char) {D : List Char}
    (hD : exclude.ShouldExclude m D true = true) :
    ∀ (fuel : Nat) (path : List Char) (x : FSTree ⊕ FSList) (st : CState),
      WfX x → underD D path = false → (∀ ch, x = .inr ch → path ≠ D) →
      (∀ p ∈ st.result, underD D p = false) →
      ∀ p ∈ (globWalkF ds m ic pattern fuel path x st).result, underD D p = false := by
  intro fuel
  induction fuel with
  | zero => intro path x st _ _ _ hst; simpa [globWalkF] using hst
  | succ n ih =>
    intro path x st hwx hpath hne hst
    cases x with
    | inl t =>
      cases t with
      | file nm =>
        intro p hp
        rw [globWalkF, globFileStep] at hp
        split at hp
        · exact hst p hp
        · split at hp
          · split at hp
            · rw [addPath] at hp
              rcases List.mem_append.mp hp with hp | hp
              · exact hst p hp
              · rw [List.mem_singleton] at hp
                exact hp ▸ hpath
            · exact hst p hp
          · exact hst p hp
      | dir nm ch =>
        cases hex : exclude.ShouldExclude m path true
        · have hpd : path ≠ D := by
            intro he
            rw [he, hD] at hex
            exact Bool.noConfusion hex
          intro p hp
          rw [globWalkF] at hp
          simp only [hex, Bool.false_eq_true, if_false] at hp
          have hch : WfL ch := by cases hwx with | dir _ _ h => exact h
          exact ih path (.inr ch) st hch hpath (fun _ _ => hpd) hst p hp
        · intro p hp
          rw [globWalkF] at hp
          simp only [hex, if_true] at hp
          exact hst p hp
    | inr ch =>
      cases ch with
      | nil =>
        intro p hp
        rw [globWalkF] at hp
        exact hst p hp
      | cons c cs =>
        intro p hp
        rw [globWalkF] at hp
        have hpd : path ≠ D := hne (.cons c cs) rfl
        obtain ⟨hn, hwc, hwcs⟩ : c.name.contains osSep = false ∧ WfT c ∧ WfL cs := by
          cases hwx with | cons c cs hn hc hcs => exact ⟨hn, hc, hcs⟩
        have hchild : underD D (joinPath path c.name) = false := by
          rw [joinPath]
          cases hdot : path == ['.']
          · simp only [hdot, Bool.false_eq_true, if_false]
            exact not_under_join hn hpath hpd
          · simp only [hdot, if_true]
            exact not_under_of_sep_free hn
        exact ih path (.inr cs) _ hwcs hpath (fun _ _ => hpd)
          (ih (joinPath path c.name) (.inl c) st hwc hchild
            (fun _ h => Sum.noConfusion h) hst) p hp

theorem collectToken_avoid (ds : List Char → List Char → Bool) {fs : FSList}
    {m : exclude.ExcludeMatcher} (ic : Bool) (fuel : Nat) {D : List Char}
    (hD : exclude.ShouldExclude m D true = true) (hwfs : WfL fs)
    {st : CState} {tok : List Char} (htok : underD D tok = false)
    (hst : ∀ p ∈ st.result, underD D p = false) :
    ∀ p ∈ (collectToken ds fs m ic fuel st tok).result, underD D p = false := by
  rw [collectToken]
  cases hstat : statPath fs tok with
  | some info =>
    cases hdir : info.isDir
    · simp only [hdir, Bool.false_eq_true, if_false]
      intro p hp
      split at hp
      · rw [addPath] at hp
        rcases List.mem_append.mp hp with hp | hp
        · exact hst p hp
        · rw [List.mem_singleton] at hp
          exact hp ▸ htok
      · exact hst p hp
    · simp only [hdir, if_true]
      exact walkF_avoid hD fuel tok (.inl info) st (statPath_wf hwfs hstat) htok
        (fun _ h => Sum.noConfusion h) hst
  | none =>
    cases hg : isGlobPattern tok
    · simp only [hg, Bool.false_eq_true, if_false]
      exact hst
    · simp only [hg, if_true]
      exact globWalkF_avoid ds ic tok hD fuel ['.'] (.inl (.dir ['.'] fs)) st
        (WfT.dir ['.'] fs hwfs) (not_under_dot D) (fun _ h => Sum.noConfusion h) hst

theorem collectLoop_avoid (ds : List Char → List Char → Bool) {fs : FSList}
    {m : exclude.ExcludeMatcher} (ic : Bool) (fuel : Nat) {D : List Char}
    (hD : exclude.ShouldExclude m D true = true) (hwfs : WfL fs) :
    ∀ (tokens : List (List Char)) (st : CState),
      (∀ t ∈ tokens, underD D t = false) →
      (∀ p ∈ st.result, underD D p = false) →
      ∀ p ∈ (collectLoop ds fs m ic fuel tokens st).result, underD D p = false := by
  intro tokens
  induction tokens with
  | nil => intro st _ hst; simpa [collectLoop] using hst
  | cons tok toks ih =>
    intro st htoks hst
    rw [collectLoop]
    exact ih _ (fun t ht => htoks t (List.mem_cons_of_mem _ ht))
      (collectToken_avoid ds ic fuel hD hwfs (htoks tok (List.mem_cons_self _ _)) hst)

end collector

/-- C4: if `ShouldExclude` excludes a path `D` as a directory (for instance
because a trailing-separator exclude pattern matches it), then — over a
well-formed file system and for tokens that do not point inside `D` — no path
strictly below `D` appears in the `CollectFiles` result: the walks prune the
subtree at `D` (or at an excluded ancestor), and matching descendants of an
include pattern are pruned with it. -/
theorem spec_C4 (ds : List Char → List Char → Bool) (fs : collector.FSList)
    (m : exclude.ExcludeMatcher) (ic : Bool) (fuel : Nat) (D : List Char)
    (tokens : List (List Char))
    (hwfs : collector.WfL fs)
    (hD : exclude.ShouldExclude m D true = true)
    (htok : ∀ t ∈ tokens, collector.underD D t = false) :
    ∀ p ∈ (collector.collectLoop ds fs m ic fuel tokens ⟨[], [], []⟩).result,
      collector.underD D p = false :=
  collector.collectLoop_avoid ds ic fuel hD hwfs tokens ⟨[], [], []⟩ htok (by simp)

/-- Demo tree for the C4 scenario: `Temp/a/b.txt`, `Temp/x.txt`, `keep.txt`. -/
def fsTempDemo : collector.FSList :=
  .cons (.dir ("Temp".toList)
      (.cons (.dir ("a".toList) (.cons (.file ("b.txt".toList)) .nil))
        (.cons (.file ("x.txt".toList)) .nil)))
    (.cons (.file ("keep.txt".toList)) .nil)

/-- Matcher for the C4 scenario: the complex trailing-separator exclude
pattern `[Tt]emp*/`. -/
def mTempDemo : exclude.ExcludeMatcher :=
  exclude.BuildMatcherNoFiles ["[Tt]emp*/".toList] false

theorem wf_fsTempDemo : collector.WfL fsTempDemo := by
  repeat first
    | exact collector.WfL.nil
    | apply collector.WfL.cons
    | apply collector.WfT.dir
    | apply collector.WfT.file
    | decide

/-- C4, witness: under pattern `[Tt]emp*/` the directory `Temp/a` is dir-excluded,
and collecting `["."]` from the demo tree yields no path under `Temp/a` — in
particular `Temp/a/b.txt` (two levels below the walk root) is absent. -/
theorem spec_C4_witness :
    (collector.WfL fsTempDemo
      ∧ exclude.ShouldExclude mTempDemo ("Temp/a".toList) true = true
      ∧ (∀ t ∈ ([".".toList] : List (List Char)),
          collector.underD ("Temp/a".toList) t = false))
    ∧ (∀ p ∈ (collector.collectLoop collector.dsNone fsTempDemo mTempDemo false 100
          [".".toList] ⟨[], [], []⟩).result,
        collector.underD ("Temp/a".toList) p = false) :=
  ⟨⟨wf_fsTempDemo, by decide, by decide⟩,
    spec_C4 collector.dsNone fsTempDemo mTempDemo false 100 ("Temp/a".toList) [".".toList]
      wf_fsTempDemo (by decide) (by decide)⟩

/-- C8, witness: tokens `["."]` over the demo tree, `pats1 = []`,
`pats2 = ["*.go"]`. -/
theorem spec_C8_witness :
    (∀ p ∈ ([] : List (List Char)), p ∈ (["*.go".toList] : List (List Char)))
    ∧ (∀ p,
        p ∈ (collector.collectLoop collector.dsNone collector.fsDemo
              ⟨none, ["*.go".toList], false⟩ false 100 [".".toList] ⟨[], [], []⟩).result →
        p ∈ (collector.collectLoop collector.dsNone collector.fsDemo
              ⟨none, [], false⟩ false 100 [".".toList] ⟨[], [], []⟩).result) :=
  ⟨fun p hp => absurd hp (List.not_mem_nil p),
    spec_C8 collector.dsNone collector.fsDemo none [] ["*.go".toList] false 100 [".".toList]
      (fun p hp => absurd hp (List.not_mem_nil p))⟩

end Clipcat
